import Mathlib

/-!
Verification of the outline hierarchy engine of the outline-eclipsed
repository.

The development shallowly embeds the TypeScript sources:

* src/outlineProvider.ts — the abstract provider: refresh, getChildren,
  createPlaceholders, findItemAtLine / searchItems.
* src/markdownOutlineProvider.ts — parseDocument with its lexical
  fallback parseMarkdownDirectly.
* src/multiLanguageOutlineProvider.ts — the dispatching facade
  (refresh, delegate switching, findItemAtLine).
* scripts/bump_version.ts (second half, the extension entry point) —
  refreshWithTimeout.

Components of the repository whose sources are not available here
(the hierarchy builder of genericOutlineProvider.ts, the section mover
of treeDragAndDropController.ts, and the external markdown-it heading
lexer) are modelled from the specification; each such definition carries
a doc comment starting with "Modelled from the spec:".

Machine conventions: line and character numbers are Nat; documents are
lists of line strings; VS Code Position/Range values are embedded with
their lexicographic containment semantics.
-/

/-- A vscode.Position: zero-based line and character. -/
structure Pos where
  line : Nat
  character : Nat
deriving DecidableEq, Repr

/-- Position.isBeforeOrEqual: lexicographic order on (line, character). -/
def Pos.isBeforeOrEqual (a b : Pos) : Bool :=
  a.line < b.line || (a.line == b.line && a.character ≤ b.character)

/-- A vscode.Range: start and end position (end is named stop, since end
is a reserved word). -/
structure Rng where
  start : Pos
  stop : Pos
deriving DecidableEq, Repr

/-- Range.contains(position): start ≤ p and p ≤ end. -/
def Rng.containsPos (r : Rng) (p : Pos) : Bool :=
  r.start.isBeforeOrEqual p && p.isBeforeOrEqual r.stop

/-- The OutlineItem tree node of the extension (outlineItem.ts /
outlineProvider.ts): label, heading level, full content range,
single-line header range, ordered children, numeric SymbolKind, and
the isPlaceholder marker set only on drop-zone placeholder items. -/
inductive OutlineItem where
  | mk (label : String) (level : Nat) (range : Rng) (headerRange : Rng)
      (children : List OutlineItem) (kind : Nat) (isPlaceholder : Bool)

def OutlineItem.label : OutlineItem → String
  | .mk l _ _ _ _ _ _ => l

def OutlineItem.level : OutlineItem → Nat
  | .mk _ lv _ _ _ _ _ => lv

def OutlineItem.range : OutlineItem → Rng
  | .mk _ _ r _ _ _ _ => r

def OutlineItem.headerRange : OutlineItem → Rng
  | .mk _ _ _ h _ _ _ => h

def OutlineItem.children : OutlineItem → List OutlineItem
  | .mk _ _ _ _ cs _ _ => cs

def OutlineItem.kind : OutlineItem → Nat
  | .mk _ _ _ _ _ k _ => k

def OutlineItem.isPlaceholder : OutlineItem → Bool
  | .mk _ _ _ _ _ _ p => p

/-- searchItems of outlineProvider.ts (lines 172–187): scan the item
list; on the first item whose range contains (lineNumber, 0), recurse
into its children and return childMatch when found, the item otherwise
(the JS expression childMatch || item). -/
def searchItems (items : List OutlineItem) (lineNumber : Nat) :
    Option OutlineItem :=
  match items with
  | [] => none
  | (OutlineItem.mk l v r h cs k p) :: rest =>
    if r.containsPos ⟨lineNumber, 0⟩ then
      match searchItems cs lineNumber with
      | some childMatch => some childMatch
      | none => some (OutlineItem.mk l v r h cs k p)
    else
      searchItems rest lineNumber

/-- Pre-order listing of every node of a forest. -/
def allNodesF : List OutlineItem → List OutlineItem
  | [] => []
  | (OutlineItem.mk l v r h cs k p) :: rest =>
      OutlineItem.mk l v r h cs k p :: (allNodesF cs ++ allNodesF rest)

/-- Whether an item's range contains the position (line, 0) — the test
that searchItems performs. -/
def containsLine (it : OutlineItem) (line : Nat) : Bool :=
  it.range.containsPos ⟨line, 0⟩

theorem searchItems_eq_none_iff (items : List OutlineItem) (n : Nat) :
    searchItems items n = none ↔ ∀ it ∈ items, containsLine it n = false := by
  induction items with
  | nil => simp [searchItems]
  | cons item rest ih =>
    cases item with
    | mk l v r h cs k p =>
      by_cases hc : r.containsPos ⟨n, 0⟩
      · constructor
        · intro hnone
          rw [searchItems, if_pos hc] at hnone
          cases hcs : searchItems cs n <;> simp [hcs] at hnone
        · intro hall
          have := hall (OutlineItem.mk l v r h cs k p) (by simp)
          simp [containsLine, OutlineItem.range] at this
          exact absurd hc (by simp [this])
      · rw [searchItems, if_neg hc]
        rw [ih]
        constructor
        · intro hall it hit
          rcases List.mem_cons.mp hit with rfl | hmem
          · simp [containsLine, OutlineItem.range]
            exact Bool.eq_false_iff.mpr hc
          · exact hall it hmem
        · intro hall it hit
          exact hall it (List.mem_cons_of_mem _ hit)

theorem searchItems_some_spec (items : List OutlineItem) (n : Nat)
    (x : OutlineItem) (hx : searchItems items n = some x) :
    containsLine x n = true ∧ ∀ c ∈ x.children, containsLine c n = false := by
  induction items, n using searchItems.induct with
  | case1 n => simp [searchItems] at hx
  | case2 n l v r h cs k p rest hc childMatch hcs ih =>
    rw [searchItems, if_pos hc, hcs] at hx
    cases hx
    exact ih hcs
  | case3 n l v r h cs k p rest hc hcs ih =>
    rw [searchItems, if_pos hc, hcs] at hx
    cases hx
    refine ⟨by simpa [containsLine, OutlineItem.range] using hc, ?_⟩
    intro c hcmem
    exact (searchItems_eq_none_iff cs n).mp hcs c
      (by simpa [OutlineItem.children] using hcmem)
  | case4 n l v r h cs k p rest hc ih =>
    rw [searchItems, if_neg hc] at hx
    exact ih hx

theorem searchItems_mem (items : List OutlineItem) (n : Nat)
    (x : OutlineItem) (hx : searchItems items n = some x) :
    x ∈ allNodesF items := by
  induction items, n using searchItems.induct with
  | case1 n => simp [searchItems] at hx
  | case2 n l v r h cs k p rest hc childMatch hcs ih =>
    rw [searchItems, if_pos hc, hcs] at hx
    cases hx
    have := ih hcs
    simp [allNodesF]
    right; left; exact this
  | case3 n l v r h cs k p rest hc hcs ih =>
    rw [searchItems, if_pos hc, hcs] at hx
    cases hx
    simp [allNodesF]
  | case4 n l v r h cs k p rest hc ih =>
    rw [searchItems, if_neg hc] at hx
    have := ih hx
    simp [allNodesF]
    right; right; exact this

/-- Disjointness of a sibling list: every item ends on a line strictly
before every later sibling starts (§3: sibling contentRanges are
pairwise disjoint and ordered by increasing start line). -/
def sibsDisjoint : List OutlineItem → Bool
  | [] => true
  | c :: rest =>
      rest.all (fun d => c.range.stop.line < d.range.start.line) &&
      sibsDisjoint rest

mutual

/-- Well-formedness of one outline item: each child's range lies inside
the parent's range and the children are pairwise disjoint and ordered
(the §3 data-model invariants, stated on vscode ranges). -/
def itemWF : OutlineItem → Bool
  | .mk _ _ r _ cs _ _ => childrenWF r cs && sibsDisjoint cs

/-- Well-formedness of a child list under a parent range. -/
def childrenWF (r : Rng) : List OutlineItem → Bool
  | [] => true
  | c :: rest =>
      r.start.isBeforeOrEqual c.range.start &&
      c.range.stop.isBeforeOrEqual r.stop &&
      itemWF c && childrenWF r rest

end

/-- Well-formedness of a whole forest: all roots well-formed, roots
pairwise disjoint and ordered. -/
def forestWF (items : List OutlineItem) : Bool :=
  items.all itemWF && sibsDisjoint items

theorem pos_isBeforeOrEqual_trans {a b c : Pos}
    (h1 : a.isBeforeOrEqual b = true) (h2 : b.isBeforeOrEqual c = true) :
    a.isBeforeOrEqual c = true := by
  simp [Pos.isBeforeOrEqual] at h1 h2 ⊢
  omega

theorem contains_mono {outer inner : Rng} {p : Pos}
    (hs : outer.start.isBeforeOrEqual inner.start = true)
    (he : inner.stop.isBeforeOrEqual outer.stop = true)
    (hc : inner.containsPos p = true) : outer.containsPos p = true := by
  simp [Rng.containsPos] at hc ⊢
  exact ⟨pos_isBeforeOrEqual_trans hs hc.1, pos_isBeforeOrEqual_trans hc.2 he⟩

theorem le_stopLine_of_containsLine {it : OutlineItem} {n : Nat}
    (h : containsLine it n = true) : n ≤ it.range.stop.line := by
  simp [containsLine, Rng.containsPos, Pos.isBeforeOrEqual] at h
  omega

theorem startLine_le_of_containsLine {it : OutlineItem} {n : Nat}
    (h : containsLine it n = true) : it.range.start.line ≤ n := by
  simp [containsLine, Rng.containsPos, Pos.isBeforeOrEqual] at h
  omega

theorem not_both_contain {a b : OutlineItem} {n : Nat}
    (hd : a.range.stop.line < b.range.start.line)
    (ha : containsLine a n = true) (hb : containsLine b n = true) : False := by
  have h1 := le_stopLine_of_containsLine ha
  have h2 := startLine_le_of_containsLine hb
  omega

theorem childrenWF_spec (r : Rng) (cs : List OutlineItem) :
    childrenWF r cs = true ↔
      ∀ c ∈ cs, r.start.isBeforeOrEqual c.range.start = true ∧
        c.range.stop.isBeforeOrEqual r.stop = true ∧ itemWF c = true := by
  induction cs with
  | nil => simp [childrenWF]
  | cons c rest ih =>
    simp only [childrenWF, Bool.and_eq_true, ih, List.mem_cons]
    constructor
    · rintro ⟨⟨⟨h1, h2⟩, h3⟩, h4⟩ d hd
      rcases hd with rfl | hd
      · exact ⟨h1, h2, h3⟩
      · exact h4 d hd
    · intro hall
      obtain ⟨h1, h2, h3⟩ := hall c (Or.inl rfl)
      exact ⟨⟨⟨h1, h2⟩, h3⟩, fun d hd => hall d (Or.inr hd)⟩

theorem sibsDisjoint_spec (items : List OutlineItem) :
    sibsDisjoint items = true ↔
      List.Pairwise (fun a b => a.range.stop.line < b.range.start.line)
        items := by
  induction items with
  | nil => simp [sibsDisjoint]
  | cons c rest ih =>
    simp [sibsDisjoint, ih, List.pairwise_cons]

theorem mem_allNodesF_decomp {x : OutlineItem} {items : List OutlineItem}
    (hx : x ∈ allNodesF items) :
    ∃ root ∈ items, x = root ∨ x ∈ allNodesF root.children := by
  induction items with
  | nil => simp [allNodesF] at hx
  | cons item rest ih =>
    cases item with
    | mk l v r h cs k p =>
      rw [allNodesF] at hx
      rcases List.mem_cons.mp hx with rfl | hx2
      · exact ⟨OutlineItem.mk l v r h cs k p, List.mem_cons_self _ _,
          Or.inl rfl⟩
      · rcases List.mem_append.mp hx2 with hcs | hrest
        · exact ⟨OutlineItem.mk l v r h cs k p, List.mem_cons_self _ _,
            Or.inr (by simpa [OutlineItem.children] using hcs)⟩
        · obtain ⟨root, hr, hor⟩ := ih hrest
          exact ⟨root, List.mem_cons_of_mem _ hr, hor⟩

theorem forest_lift (items : List OutlineItem)
    (hw : items.all itemWF = true) :
    ∀ x ∈ allNodesF items, ∀ n, containsLine x n = true →
      ∃ root ∈ items, containsLine root n = true ∧
        (x = root ∨ x ∈ allNodesF root.children) := by
  induction items using allNodesF.induct with
  | case1 => intro x hx; simp [allNodesF] at hx
  | case2 l v r h cs k p rest ihcs ihrest =>
    intro x hx n hcx
    simp only [List.all_cons, Bool.and_eq_true] at hw
    obtain ⟨hwitem, hwrest⟩ := hw
    have hcsall : cs.all itemWF = true := by
      rw [itemWF, Bool.and_eq_true] at hwitem
      rw [List.all_eq_true]
      intro c hc
      exact ((childrenWF_spec r cs).mp hwitem.1 c hc).2.2
    rw [allNodesF] at hx
    rcases List.mem_cons.mp hx with rfl | hx2
    · exact ⟨OutlineItem.mk l v r h cs k p, List.mem_cons_self _ _, hcx,
        Or.inl rfl⟩
    · rcases List.mem_append.mp hx2 with hcs | hrest
      · obtain ⟨root', hr', hcr', _⟩ := ihcs hcsall x hcs n hcx
        rw [itemWF, Bool.and_eq_true] at hwitem
        obtain ⟨h1, h2, _⟩ := (childrenWF_spec r cs).mp hwitem.1 root' hr'
        have : containsLine (OutlineItem.mk l v r h cs k p) n = true := by
          simp only [containsLine, OutlineItem.range] at hcr' ⊢
          exact contains_mono h1 h2 hcr'
        exact ⟨OutlineItem.mk l v r h cs k p, List.mem_cons_self _ _, this,
          Or.inr (by simpa [OutlineItem.children] using hcs)⟩
      · obtain ⟨root, hr, hcr, hor⟩ := ihrest hwrest x hrest n hcx
        exact ⟨root, List.mem_cons_of_mem _ hr, hcr, hor⟩

theorem searchItems_complete (items : List OutlineItem) (n : Nat)
    (hwf : forestWF items = true) :
    ∀ x ∈ allNodesF items, containsLine x n = true →
      (∀ c ∈ x.children, containsLine c n = false) →
      searchItems items n = some x := by
  induction items using allNodesF.induct with
  | case1 => intro x hx; simp [allNodesF] at hx
  | case2 l v r h cs k p rest ihcs ihrest =>
    intro x hx hcx hchildren
    rw [forestWF, Bool.and_eq_true, List.all_cons, Bool.and_eq_true] at hwf
    obtain ⟨⟨hwitem, hwrest⟩, hdisj⟩ := hwf
    have hwitem' := hwitem
    rw [itemWF, Bool.and_eq_true] at hwitem'
    obtain ⟨hcwf, hcdisj⟩ := hwitem'
    have hcsall : cs.all itemWF = true := by
      rw [List.all_eq_true]
      intro c hc
      exact ((childrenWF_spec r cs).mp hcwf c hc).2.2
    have hdisj' := (sibsDisjoint_spec _).mp hdisj
    rw [List.pairwise_cons] at hdisj'
    obtain ⟨hheadrest, hrestdisj⟩ := hdisj'
    rw [allNodesF] at hx
    rcases List.mem_cons.mp hx with rfl | hx2
    · -- x is the head item itself: its children do not contain n,
      -- so the child search fails and the item is returned.
      have hnone : searchItems cs n = none := by
        rw [searchItems_eq_none_iff]
        intro c hc
        exact hchildren c (by simpa [OutlineItem.children] using hc)
      have hcx' : (Rng.containsPos r ⟨n, 0⟩) = true := by
        simpa [containsLine, OutlineItem.range] using hcx
      rw [searchItems, if_pos hcx', hnone]
    · rcases List.mem_append.mp hx2 with hxcs | hxrest
      · -- x lies in the head's subtree: the head contains n and the
        -- recursive child search finds x.
        obtain ⟨root', hr', hcr', _⟩ :=
          forest_lift cs hcsall x hxcs n hcx
        obtain ⟨h1, h2, _⟩ := (childrenWF_spec r cs).mp hcwf root' hr'
        have hcont : (Rng.containsPos r ⟨n, 0⟩) = true := by
          simp only [containsLine, OutlineItem.range] at hcr'
          exact contains_mono h1 h2 hcr'
        have hsome : searchItems cs n = some x := by
          apply ihcs _ x hxcs hcx hchildren
          rw [forestWF, Bool.and_eq_true]
          exact ⟨hcsall, hcdisj⟩
        rw [searchItems, if_pos hcont, hsome]
      · -- x lies under a later sibling root: the head cannot contain n
        -- (sibling disjointness), so the scan moves on.
        obtain ⟨root, hr, hcr, _⟩ := forest_lift rest hwrest x hxrest n hcx
        have hnot : (Rng.containsPos r ⟨n, 0⟩) = false := by
          by_contra hne
          rw [Bool.not_eq_false] at hne
          exact @not_both_contain (OutlineItem.mk l v r h cs k p) root n
            (by simpa [OutlineItem.range] using hheadrest root hr)
            (by simpa [containsLine, OutlineItem.range] using hne) hcr
        rw [searchItems, if_neg (by simp [hnot])]
        apply ihrest _ x hxrest hcx hchildren
        rw [forestWF, Bool.and_eq_true]
        exact ⟨hwrest, (sibsDisjoint_spec _).mpr hrestdisj⟩

/-- A vscode.TextDocument restricted to what the code reads: its lines
and its languageId. lineCount is the number of lines; lineAt returns a
line's text. -/
structure Document where
  lines : List String
  languageId : String

def Document.lineCount (d : Document) : Nat := d.lines.length

def Document.lineAt (d : Document) (n : Nat) : String := d.lines.getD n ""

/-- The mutable fields of the abstract OutlineProvider
(outlineProvider.ts): the parsed root items and the current document. -/
structure ProviderState where
  items : List OutlineItem
  currentDocument : Option Document

/-- refresh of outlineProvider.ts (lines 36–46): with a document, store
it and parse it (parseDocument is the subclass hook, passed as a
function); without one, clear both fields. The Bool is the
onDidChangeTreeData firing. -/
def baseRefresh (parse : Document → List OutlineItem)
    (_st : ProviderState) (doc? : Option Document) : ProviderState × Bool :=
  match doc? with
  | some doc => (⟨parse doc, some doc⟩, true)
  | none => (⟨[], none⟩, true)

/-- createPlaceholders of outlineProvider.ts (lines 109–139): one
invisible item with empty label, level 0, a zero-width range at the end
of the document's last line, SymbolKind.Null (numeric value 20), and the
isPlaceholder marker; empty when there is no current document. -/
def createPlaceholders (st : ProviderState) : List OutlineItem :=
  match st.currentDocument with
  | none => []
  | some doc =>
    let endLine := doc.lineCount - 1
    let endChar := (doc.lineAt endLine).length
    let range : Rng := ⟨⟨endLine, endChar⟩, ⟨endLine, endChar⟩⟩
    [OutlineItem.mk "" 0 range range [] 20 true]

/-- getChildren of outlineProvider.ts (lines 89–101): empty without a
current document; an element's children for an element; the root items
followed by the placeholder list at the root. -/
def getChildren (st : ProviderState) (element : Option OutlineItem) :
    List OutlineItem :=
  match st.currentDocument with
  | none => []
  | some _ =>
    match element with
    | some el => el.children
    | none => st.items ++ createPlaceholders st

/-- findItemAtLine of outlineProvider.ts (lines 160–162): delegate to
searchItems over the root items. -/
def findItemAtLine (st : ProviderState) (lineNumber : Nat) :
    Option OutlineItem :=
  searchItems st.items lineNumber

/-- C2: for every well-formed forest and line number, findItemAtLine
returns the innermost node whose range contains the line: it returns
none exactly when no root contains the line; any returned node contains
the line while none of its children does; and any node of the forest
that contains the line with no containing child is the one returned. -/
theorem c2_findItemAtLine_innermost (st : ProviderState) (n : Nat)
    (hwf : forestWF st.items = true) :
    (findItemAtLine st n = none ↔
      ∀ r ∈ st.items, containsLine r n = false) ∧
    (∀ x, findItemAtLine st n = some x →
      containsLine x n = true ∧ ∀ c ∈ x.children, containsLine c n = false) ∧
    (∀ x ∈ allNodesF st.items, containsLine x n = true →
      (∀ c ∈ x.children, containsLine c n = false) →
      findItemAtLine st n = some x) := by
  refine ⟨searchItems_eq_none_iff st.items n, ?_, ?_⟩
  · intro x hx
    exact searchItems_some_spec st.items n x hx
  · intro x hx hcx hch
    exact searchItems_complete st.items n hwf x hx hcx hch

/-- A small concrete two-level forest used as the C2 witness input. -/
def c2DemoChild : OutlineItem :=
  OutlineItem.mk "B" 2 ⟨⟨2, 0⟩, ⟨5, 3⟩⟩ ⟨⟨2, 0⟩, ⟨2, 4⟩⟩ [] 14 false

def c2DemoRoot : OutlineItem :=
  OutlineItem.mk "A" 1 ⟨⟨0, 0⟩, ⟨5, 3⟩⟩ ⟨⟨0, 0⟩, ⟨0, 3⟩⟩ [c2DemoChild] 14 false

def c2DemoState : ProviderState := ⟨[c2DemoRoot], none⟩

theorem c2_findItemAtLine_innermost_witness :
    forestWF c2DemoState.items = true ∧
    (findItemAtLine c2DemoState 3 = none ↔
      ∀ r ∈ c2DemoState.items, containsLine r 3 = false) := by
  have hwf : forestWF c2DemoState.items = true := by
    simp [c2DemoState, c2DemoRoot, c2DemoChild, forestWF, itemWF,
      childrenWF, sibsDisjoint, OutlineItem.range, Pos.isBeforeOrEqual]
  exact ⟨hwf, (c2_findItemAtLine_innermost c2DemoState 3 hwf).1⟩

/-- A structural symbol fed to the hierarchy builder (§3 data model):
name, positive level, and the single line of its header range. -/
structure OSym where
  name : String
  level : Nat
  line : Nat
deriving DecidableEq, Repr

/-- An outline node of the built forest (§3 data model): label, level,
header line, and the content range given as its start and end lines.
The builder is the missing genericOutlineProvider.ts; the node type
mirrors OutlineItem but keeps the line arithmetic explicit. -/
inductive Node where
  | mk (label : String) (level : Nat) (headerLine : Nat)
      (contentStart : Nat) (contentEnd : Nat) (children : List Node)

def Node.label : Node → String
  | .mk l _ _ _ _ _ => l

def Node.level : Node → Nat
  | .mk _ v _ _ _ _ => v

def Node.headerLine : Node → Nat
  | .mk _ _ h _ _ _ => h

def Node.contentStart : Node → Nat
  | .mk _ _ _ s _ _ => s

def Node.contentEnd : Node → Nat
  | .mk _ _ _ _ e _ => e

def Node.children : Node → List Node
  | .mk _ _ _ _ _ cs => cs

/-- Pre-order listing of every node of a built forest. -/
def allNodesN : List Node → List Node
  | [] => []
  | (Node.mk l v h s e cs) :: rest =>
      Node.mk l v h s e cs :: (allNodesN cs ++ allNodesN rest)

mutual

/-- The §3 invariants of one node: contentRange.start equals
headerRange.start, the range is well formed, every child is strictly
contained (strictly later start, end within the parent's end) and
itself valid, and siblings are pairwise disjoint in document order. -/
def nodeValid : Node → Prop
  | .mk _ _ h s e cs =>
      s = h ∧ s ≤ e ∧ childrenValid s e cs ∧
      List.Pairwise (fun a b => a.contentEnd < b.contentStart) cs

/-- Validity of a child list under parent content bounds. -/
def childrenValid (ps pe : Nat) : List Node → Prop
  | [] => True
  | c :: rest =>
      (ps < c.contentStart ∧ c.contentEnd ≤ pe ∧ nodeValid c) ∧
      childrenValid ps pe rest

end

/-- The §3 forest invariant: every root is valid and the roots are
pairwise disjoint in document order. -/
def forestValid (roots : List Node) : Prop :=
  (∀ n ∈ roots, nodeValid n) ∧
  List.Pairwise (fun a b => a.contentEnd < b.contentStart) roots

theorem childrenValid_iff (ps pe : Nat) (cs : List Node) :
    childrenValid ps pe cs ↔
      ∀ c ∈ cs, ps < c.contentStart ∧ c.contentEnd ≤ pe ∧ nodeValid c := by
  induction cs with
  | nil => simp [childrenValid]
  | cons c rest ih =>
    rw [childrenValid, ih]
    constructor
    · rintro ⟨h1, h2⟩ d hd
      rcases List.mem_cons.mp hd with rfl | hd
      · exact h1
      · exact h2 d hd
    · intro hall
      exact ⟨hall c (List.mem_cons_self _ _),
        fun d hd => hall d (List.mem_cons_of_mem _ hd)⟩

/-- Modelled from the spec: an open entry of the builder's explicit
stack (§4.1) — the symbol's fields plus the already-closed children
accumulated in document order. The builder itself lives in the missing
genericOutlineProvider.ts. -/
structure Frame where
  label : String
  level : Nat
  headerLine : Nat
  childAcc : List Node

/-- Modelled from the spec: closing an open stack entry at close line c
finalizes its contentRange as [headerLine, c] (§4.1 steps 1 and 4), with
contentRange.start equal to the header start. -/
def closeFrame (f : Frame) (c : Nat) : Node :=
  Node.mk f.label f.level f.headerLine f.headerLine c f.childAcc

/-- Modelled from the spec: the builder state — finished roots in
document order plus the stack of open entries, topmost first. -/
structure BuildState where
  roots : List Node
  stack : List Frame

/-- Modelled from the spec: pop the stack while the top entry's level is
at least L, closing each popped entry at line c; a popped entry becomes
a child of the entry below it, or a root when the stack empties (§4.1
step 1). Called with L = 0 it closes every remaining entry, which is
§4.1 step 4. -/
def popClose (L c : Nat) : List Frame → List Node → List Frame × List Node
  | [], roots => ([], roots)
  | f :: rest, roots =>
    if L ≤ f.level then
      let n := closeFrame f c
      match rest with
      | [] => ([], roots ++ [n])
      | g :: gs =>
          popClose L c ({ g with childAcc := g.childAcc ++ [n] } :: gs) roots
    else (f :: rest, roots)
termination_by stack _ => stack.length

/-- Modelled from the spec: process one incoming symbol (§4.1 steps
1–3): skip malformed symbols (level ≤ 0, here level 0 on Nat), close
open entries down to the first with a smaller level at the line
immediately before the new header, then push the new open entry. A
symbol attached as a child on push receives that same parent when it is
eventually closed, so attachment is recorded at close time. -/
def step (st : BuildState) (s : OSym) : BuildState :=
  if s.level = 0 then st
  else
    let pr := popClose s.level (s.line - 1) st.stack st.roots
    ⟨pr.2, ⟨s.name, s.level, s.line, []⟩ :: pr.1⟩

/-- Modelled from the spec: the hierarchy builder (§4.1) — fold the
ordered symbol stream through step, then close every remaining open
entry at the last line of the document. -/
def buildHierarchy (syms : List OSym) (docEnd : Nat) : List Node :=
  let st := syms.foldl step ⟨[], []⟩
  (popClose 0 docEnd st.stack st.roots).2

/-- Invariant of one open stack entry while the build has processed all
header lines below B and the document ends at line E. -/
def frameOK (B E : Nat) (f : Frame) : Prop :=
  f.headerLine < B ∧ f.headerLine ≤ E ∧
  (∀ n ∈ f.childAcc, nodeValid n ∧ f.headerLine < n.contentStart ∧
    n.contentEnd < B ∧ n.contentEnd ≤ E) ∧
  List.Pairwise (fun a b => a.contentEnd < b.contentStart) f.childAcc

/-- Relation between a stack entry f and the entry g directly below it:
levels and header lines strictly increase upwards, and every child
already accumulated below ends before the upper entry's header. -/
def frameRel (f g : Frame) : Prop :=
  g.level < f.level ∧ g.headerLine < f.headerLine ∧
  ∀ n ∈ g.childAcc, n.contentEnd < f.headerLine

/-- The builder-state invariant: finished roots are valid, disjoint,
ordered and end below B (and the document end E); open entries are
well-formed and stacked with strictly increasing levels and header
lines; all roots end before the bottom entry's header. -/
structure StInv (roots : List Node) (stack : List Frame) (B E : Nat) :
    Prop where
  roots_valid : ∀ n ∈ roots, nodeValid n ∧ n.contentEnd < B ∧
    n.contentEnd ≤ E
  roots_ord : List.Pairwise (fun a b => a.contentEnd < b.contentStart) roots
  frames_ok : ∀ f ∈ stack, frameOK B E f
  frames_chain : List.Chain' frameRel stack
  roots_below : ∀ f, stack.getLast? = some f →
    ∀ n ∈ roots, n.contentEnd < f.headerLine

theorem StInv.mono {roots : List Node} {stack : List Frame}
    {B B2 E : Nat} (h : StInv roots stack B E) (hB : B ≤ B2) :
    StInv roots stack B2 E := by
  refine ⟨?_, h.roots_ord, ?_, h.frames_chain, h.roots_below⟩
  · intro n hn
    obtain ⟨h1, h2, h3⟩ := h.roots_valid n hn
    exact ⟨h1, by omega, h3⟩
  · intro f hf
    obtain ⟨h1, h2, h3, h4⟩ := h.frames_ok f hf
    refine ⟨by omega, h2, ?_, h4⟩
    intro n hn
    obtain ⟨g1, g2, g3, g4⟩ := h3 n hn
    exact ⟨g1, g2, by omega, g4⟩

theorem nodeValid_closeFrame (f : Frame) (c : Nat)
    (hh : f.headerLine ≤ c)
    (hch : ∀ n ∈ f.childAcc, nodeValid n ∧ f.headerLine < n.contentStart ∧
      n.contentEnd ≤ c)
    (hord : List.Pairwise (fun a b => a.contentEnd < b.contentStart)
      f.childAcc) :
    nodeValid (closeFrame f c) := by
  rw [closeFrame, nodeValid]
  refine ⟨rfl, hh, ?_, hord⟩
  rw [childrenValid_iff]
  intro n hn
  obtain ⟨h1, h2, h3⟩ := hch n hn
  exact ⟨h2, h3, h1⟩

theorem closeFrame_contentStart (f : Frame) (c : Nat) :
    (closeFrame f c).contentStart = f.headerLine := rfl

theorem closeFrame_contentEnd (f : Frame) (c : Nat) :
    (closeFrame f c).contentEnd = c := rfl

theorem popClose_head_level (L c : Nat) (stack : List Frame)
    (roots : List Node) :
    ∀ f, (popClose L c stack roots).1.head? = some f → f.level < L := by
  induction stack, roots using popClose.induct L c with
  | case1 roots => intro f h; simp [popClose] at h
  | case2 f roots hle => intro g h; simp [popClose, hle] at h
  | case3 f roots hle n g gs ih =>
    intro x h
    rw [popClose] at h
    simp only [hle, if_true] at h
    exact ih x h
  | case4 f rest roots hnle =>
    intro x h
    rw [popClose] at h
    simp only [if_neg hnle] at h
    simp at h
    subst h
    omega

theorem popClose_frames_sub (L c : Nat) (stack : List Frame)
    (roots : List Node) :
    ∀ f ∈ (popClose L c stack roots).1, ∃ f0 ∈ stack,
      f.headerLine = f0.headerLine ∧ f.level = f0.level := by
  induction stack, roots using popClose.induct L c with
  | case1 roots => intro f h; simp [popClose] at h
  | case2 f roots hle => intro g h; simp [popClose, hle] at h
  | case3 f roots hle n g gs ih =>
    intro x h
    rw [popClose] at h
    simp only [hle, if_true] at h
    obtain ⟨f0, hf0, he⟩ := ih x h
    rcases List.mem_cons.mp hf0 with rfl | hf0'
    · exact ⟨g, by simp, he⟩
    · exact ⟨f0, by simp [hf0'], he⟩
  | case4 f rest roots hnle =>
    intro x h
    rw [popClose] at h
    simp only [if_neg hnle] at h
    exact ⟨x, h, rfl, rfl⟩

theorem popClose_zero_nil (c : Nat) (stack : List Frame)
    (roots : List Node) :
    (popClose 0 c stack roots).1 = [] := by
  induction stack, roots using popClose.induct 0 c with
  | case1 roots => simp [popClose]
  | case2 f roots hle => simp [popClose, hle]
  | case3 f roots hle n g gs ih =>
    rw [popClose]
    simp only [hle, if_true]
    exact ih
  | case4 f rest roots hnle => omega

theorem popClose_inv (L c : Nat) (stack : List Frame) (roots : List Node) :
    ∀ B E : Nat, StInv roots stack B E → B ≤ c + 1 → c ≤ E →
      StInv (popClose L c stack roots).2 (popClose L c stack roots).1
        (c + 1) E := by
  induction stack, roots using popClose.induct L c with
  | case1 roots =>
    intro B E h hB hE
    simpa [popClose] using h.mono hB
  | case2 f roots hle =>
    intro B E h hB hE
    have hfok := h.frames_ok f (by simp)
    obtain ⟨hf1, hf2, hf3, hf4⟩ := hfok
    have hvalid : nodeValid (closeFrame f c) := by
      apply nodeValid_closeFrame f c (by omega) ?_ hf4
      intro n hn
      obtain ⟨g1, g2, g3, g4⟩ := hf3 n hn
      exact ⟨g1, g2, by omega⟩
    rw [popClose]
    simp only [hle, if_true]
    refine ⟨?_, ?_, by simp, by simp, by simp⟩
    · intro n hn
      rcases List.mem_append.mp hn with hn | hn
      · obtain ⟨g1, g2, g3⟩ := h.roots_valid n hn
        exact ⟨g1, by omega, g3⟩
      · rw [List.mem_singleton] at hn
        subst hn
        exact ⟨hvalid, by simp [closeFrame_contentEnd], by
          simp [closeFrame_contentEnd]; omega⟩
    · rw [List.pairwise_append]
      refine ⟨h.roots_ord, by simp, ?_⟩
      intro a ha b hb
      rw [List.mem_singleton] at hb
      subst hb
      rw [closeFrame_contentStart]
      exact h.roots_below f (by simp) a ha
  | case3 f roots hle n g gs ih =>
    intro B E h hB hE
    have hfok := h.frames_ok f (by simp)
    obtain ⟨hf1, hf2, hf3, hf4⟩ := hfok
    have hgok := h.frames_ok g (by simp)
    obtain ⟨hg1, hg2, hg3, hg4⟩ := hgok
    have hrel : frameRel f g := (List.chain'_cons.mp h.frames_chain).1
    obtain ⟨hr1, hr2, hr3⟩ := hrel
    have hchain2 : List.Chain' frameRel (g :: gs) :=
      (List.chain'_cons.mp h.frames_chain).2
    have hvalid : nodeValid (closeFrame f c) := by
      apply nodeValid_closeFrame f c (by omega) ?_ hf4
      intro m hm
      obtain ⟨g1, g2, g3, g4⟩ := hf3 m hm
      exact ⟨g1, g2, by omega⟩
    rw [popClose]
    simp only [hle, if_true]
    apply ih (c + 1) E ?_ (by omega) hE
    refine ⟨?_, h.roots_ord, ?_, ?_, ?_⟩
    · intro m hm
      obtain ⟨g1, g2, g3⟩ := h.roots_valid m hm
      exact ⟨g1, by omega, g3⟩
    · intro f2 hf2mem
      rcases List.mem_cons.mp hf2mem with rfl | hf2mem'
      · refine ⟨by simp; omega, by simpa using hg2, ?_, ?_⟩
        · intro m hm
          simp only at hm
          rcases List.mem_append.mp hm with hm | hm
          · obtain ⟨k1, k2, k3, k4⟩ := hg3 m hm
            exact ⟨k1, by simpa using k2, by omega, k4⟩
          · rw [List.mem_singleton] at hm
            subst hm
            have hn1 : n.contentStart = f.headerLine := rfl
            have hn2 : n.contentEnd = c := rfl
            have hgh : ({ g with childAcc := g.childAcc ++ [n] } :
              Frame).headerLine = g.headerLine := rfl
            exact ⟨hvalid, by omega, by omega, by omega⟩
        · simp only
          rw [List.pairwise_append]
          refine ⟨hg4, by simp, ?_⟩
          intro a ha b hb
          rw [List.mem_singleton] at hb
          subst hb
          have hn1 : n.contentStart = f.headerLine := rfl
          rw [hn1]
          exact hr3 a ha
      · obtain ⟨k1, k2, k3, k4⟩ := h.frames_ok f2 (by simp [hf2mem'])
        refine ⟨by omega, k2, ?_, k4⟩
        intro m hm
        obtain ⟨j1, j2, j3, j4⟩ := k3 m hm
        exact ⟨j1, j2, by omega, j4⟩
    · cases gs with
      | nil => simp
      | cons h2 t =>
        rw [List.chain'_cons]
        have := List.chain'_cons.mp hchain2
        obtain ⟨⟨q1, q2, q3⟩, q4⟩ := this
        exact ⟨⟨by simpa using q1, by simpa using q2, fun m hm => by
          simpa using q3 m hm⟩, q4⟩
    · intro f2 hf2last m hm
      cases gs with
      | nil =>
        simp at hf2last
        subst hf2last
        have : List.getLast? [f, g] = some g := by simp
        simpa using h.roots_below g this m hm
      | cons h2 t =>
        have : List.getLast? (f :: g :: h2 :: t) = some f2 := by
          rw [List.getLast?_cons_cons, List.getLast?_cons_cons]
          rw [List.getLast?_cons_cons] at hf2last
          exact hf2last
        exact h.roots_below f2 this m hm
  | case4 f rest roots hnle =>
    intro B E h hB hE
    rw [popClose]
    simp only [if_neg hnle]
    exact h.mono hB

theorem step_inv (st : BuildState) (s : OSym) (B E : Nat)
    (h : StInv st.roots st.stack B E) (hB : B ≤ s.line) (hE : s.line ≤ E) :
    StInv (step st s).roots (step st s).stack (s.line + 1) E := by
  have hnf1 : (⟨s.name, s.level, s.line, []⟩ : Frame).headerLine = s.line :=
    rfl
  have hnf2 : (⟨s.name, s.level, s.line, []⟩ : Frame).level = s.level := rfl
  have hnf3 : (⟨s.name, s.level, s.line, []⟩ : Frame).childAcc = [] := rfl
  by_cases hlv : s.level = 0
  · rw [step, if_pos hlv]
    exact h.mono (by omega)
  · rw [step, if_neg hlv]
    show StInv (popClose s.level (s.line - 1) st.stack st.roots).2
      ((⟨s.name, s.level, s.line, []⟩ : Frame) ::
        (popClose s.level (s.line - 1) st.stack st.roots).1)
      (s.line + 1) E
    rcases Nat.eq_zero_or_pos s.line with hz | hpos
    · -- line 0: the state must still be empty, the new entry is alone.
      have hroots : st.roots = [] := by
        rw [List.eq_nil_iff_forall_not_mem]
        intro n hn
        have := (h.roots_valid n hn).2.1
        omega
      have hstack : st.stack = [] := by
        rw [List.eq_nil_iff_forall_not_mem]
        intro f hf
        have := (h.frames_ok f hf).1
        omega
      rw [hroots, hstack]
      simp only [popClose]
      refine ⟨by simp, by simp, ?_, by simp, ?_⟩
      · intro f hf
        rw [List.mem_singleton] at hf
        subst hf
        refine ⟨by omega, by omega, ?_, ?_⟩
        · rw [hnf3]; simp
        · rw [hnf3]; simp
      · intro f hf n hn
        simp at hn
    · have hc1 : s.line - 1 + 1 = s.line := by omega
      have hres := popClose_inv s.level (s.line - 1) st.stack st.roots B E h
        (by omega) (by omega)
      rw [hc1] at hres
      refine ⟨?_, hres.roots_ord, ?_, ?_, ?_⟩
      · intro n hn
        obtain ⟨g1, g2, g3⟩ := hres.roots_valid n hn
        exact ⟨g1, by omega, g3⟩
      · intro f hf
        rcases List.mem_cons.mp hf with rfl | hf'
        · refine ⟨by omega, by omega, ?_, ?_⟩
          · rw [hnf3]; simp
          · rw [hnf3]; simp
        · obtain ⟨k1, k2, k3, k4⟩ := hres.frames_ok f hf'
          refine ⟨by omega, k2, ?_, k4⟩
          intro m hm
          obtain ⟨j1, j2, j3, j4⟩ := k3 m hm
          exact ⟨j1, j2, by omega, j4⟩
      · cases hstack' : (popClose s.level (s.line - 1) st.stack st.roots).1
          with
        | nil => simp
        | cons t ts =>
          rw [List.chain'_cons]
          constructor
          · have hlev := popClose_head_level s.level (s.line - 1) st.stack
              st.roots t (by rw [hstack']; rfl)
            obtain ⟨f0, hf0, he1, he2⟩ := popClose_frames_sub s.level
              (s.line - 1) st.stack st.roots t (by rw [hstack']; simp)
            have hf0b := (h.frames_ok f0 hf0).1
            refine ⟨by omega, by omega, ?_⟩
            intro m hm
            have hk := hres.frames_ok t (by rw [hstack']; simp)
            obtain ⟨k1, k2, k3, k4⟩ := hk
            have := (k3 m hm).2.2.1
            omega
          · have := hres.frames_chain
            rw [hstack'] at this
            exact this
      · intro f2 hf2 n hn
        cases hstack' : (popClose s.level (s.line - 1) st.stack st.roots).1
          with
        | nil =>
          rw [hstack'] at hf2
          simp at hf2
          subst hf2
          have := (hres.roots_valid n hn).2.1
          omega
        | cons t ts =>
          rw [hstack', List.getLast?_cons_cons] at hf2
          apply hres.roots_below f2 _ n hn
          rw [hstack']
          exact hf2

theorem fold_inv (syms : List OSym) :
    ∀ (st : BuildState) (B E : Nat), StInv st.roots st.stack B E →
      B ≤ E + 1 →
      List.Pairwise (fun a b => a.line < b.line) syms →
      (∀ s ∈ syms, B ≤ s.line ∧ s.line ≤ E) →
      ∃ B2, B ≤ B2 ∧ B2 ≤ E + 1 ∧
        StInv (syms.foldl step st).roots (syms.foldl step st).stack B2 E := by
  induction syms with
  | nil =>
    intro st B E h hBE _ _
    exact ⟨B, le_refl _, hBE, h⟩
  | cons s rest ih =>
    intro st B E h hBE hsort hrange
    obtain ⟨hB, hE⟩ := hrange s (List.mem_cons_self _ _)
    rw [List.pairwise_cons] at hsort
    obtain ⟨hhead, htail⟩ := hsort
    have hstep := step_inv st s B E h hB hE
    have hrange' : ∀ r ∈ rest, s.line + 1 ≤ r.line ∧ r.line ≤ E := by
      intro r hr
      exact ⟨by have := hhead r hr; omega, (hrange r (.tail _ hr)).2⟩
    obtain ⟨B2, hB2a, hB2b, hB2inv⟩ := ih (step st s) (s.line + 1) E hstep
      (by omega) htail hrange'
    exact ⟨B2, by omega, hB2b, by simpa using hB2inv⟩

/-- C1: for every symbol stream ordered by strictly increasing header
line and contained in the document (every header line at most docEnd),
the built forest satisfies the §3 invariants: every node's contentRange
starts at its header line (part of nodeValid), every parent strictly
contains each child, and siblings — including the roots — are pairwise
disjoint and ordered by increasing start line in document order. -/
theorem c1_build_forest_invariants (syms : List OSym) (docEnd : Nat)
    (hsort : List.Pairwise (fun a b => a.line < b.line) syms)
    (hin : ∀ s ∈ syms, s.line ≤ docEnd) :
    forestValid (buildHierarchy syms docEnd) := by
  have hinit : StInv ([] : List Node) ([] : List Frame) 0 docEnd := by
    refine ⟨by simp, by simp, by simp, by simp, by simp⟩
  obtain ⟨B2, _, hB2b, hinv⟩ := fold_inv syms ⟨[], []⟩ 0 docEnd hinit
    (by omega) hsort (fun s hs => ⟨Nat.zero_le _, hin s hs⟩)
  have hfinal := popClose_inv 0 docEnd
    (List.foldl step ⟨[], []⟩ syms).stack
    (List.foldl step ⟨[], []⟩ syms).roots B2 docEnd hinv (by omega)
    (le_refl _)
  rw [buildHierarchy]
  constructor
  · intro n hn
    exact (hfinal.roots_valid n hn).1
  · exact hfinal.roots_ord

/-- The §8 concrete build scenario: symbols at lines 0 (level 1, A),
5 (level 2, B), 10 (level 3, C), 15 (level 1, D) in a 20-line
document. -/
def demoSyms : List OSym :=
  [⟨"A", 1, 0⟩, ⟨"B", 2, 5⟩, ⟨"C", 3, 10⟩, ⟨"D", 1, 15⟩]

theorem c1_build_forest_invariants_witness :
    List.Pairwise (fun a b => a.line < b.line) demoSyms ∧
    (∀ s ∈ demoSyms, s.line ≤ 19) ∧
    forestValid (buildHierarchy demoSyms 19) :=
  ⟨by decide, by decide,
    c1_build_forest_invariants demoSyms 19 (by decide) (by decide)⟩

mutual

/-- Conversion of a built node to the OutlineItem shape consumed by
searchItems: the content range covers the node's lines (characters 0),
the header range is the header line. -/
def Node.toItem : Node → OutlineItem
  | .mk l v h s e cs =>
      OutlineItem.mk l v ⟨⟨s, 0⟩, ⟨e, 0⟩⟩ ⟨⟨h, 0⟩, ⟨h, 0⟩⟩
        (Node.toItemList cs) 14 false

/-- Conversion of a node list. -/
def Node.toItemList : List Node → List OutlineItem
  | [] => []
  | n :: rest => Node.toItem n :: Node.toItemList rest

end

/-- The forest of the §8 scenario, as searchItems consumes it. -/
def c8Forest : List OutlineItem := Node.toItemList (buildHierarchy demoSyms 19)

/-- C8: the builder turns the §8 symbols into root A with contentRange
[0,14] containing B [5,14] containing C [10,14], and root D [15,19]; on
that forest the line locator finds C at 12, B at 6, D at 16, A at 3 and
nothing at 25. -/
theorem c8_build_and_locate :
    buildHierarchy demoSyms 19 =
      [Node.mk "A" 1 0 0 14 [Node.mk "B" 2 5 5 14
        [Node.mk "C" 3 10 10 14 []]],
       Node.mk "D" 1 15 15 19 []] ∧
    (searchItems c8Forest 12).map OutlineItem.label = some "C" ∧
    (searchItems c8Forest 6).map OutlineItem.label = some "B" ∧
    (searchItems c8Forest 16).map OutlineItem.label = some "D" ∧
    (searchItems c8Forest 3).map OutlineItem.label = some "A" ∧
    searchItems c8Forest 25 = none := by
  refine ⟨?_, ?_, ?_, ?_, ?_, ?_⟩ <;>
    simp [c8Forest, demoSyms, buildHierarchy, step, popClose, closeFrame,
      Node.toItemList, Node.toItem, searchItems, Rng.containsPos,
      Pos.isBeforeOrEqual, OutlineItem.label]

theorem mem_allNodesF_of_mem {it : OutlineItem} {items : List OutlineItem}
    (h : it ∈ items) : it ∈ allNodesF items := by
  induction items with
  | nil => simp at h
  | cons a rest ih =>
    cases a with
    | mk l v r hh cs k p =>
      rw [allNodesF]
      rcases List.mem_cons.mp h with rfl | h'
      · exact List.mem_cons_self _ _
      · exact List.mem_cons_of_mem _ (List.mem_append_right _ (ih h'))

/-- C10: with a current document set, getChildren at the root returns
the cached root items followed by exactly one placeholder with empty
label, level 0 and a zero-width range at the end of the last line; when
no item of the forest is a placeholder, this placeholder is not among
the root items and findItemAtLine never returns it. -/
theorem c10_getChildren_placeholder (st : ProviderState) (doc : Document)
    (hdoc : st.currentDocument = some doc)
    (hnp : ∀ it ∈ allNodesF st.items, it.isPlaceholder = false) :
    ∃ ph, getChildren st none = st.items ++ [ph] ∧
      ph.label = "" ∧ ph.level = 0 ∧
      ph.range = ⟨⟨doc.lineCount - 1, (doc.lineAt (doc.lineCount - 1)).length⟩,
        ⟨doc.lineCount - 1, (doc.lineAt (doc.lineCount - 1)).length⟩⟩ ∧
      ph.isPlaceholder = true ∧
      ph ∉ st.items ∧
      ∀ line, findItemAtLine st line ≠ some ph := by
  refine ⟨OutlineItem.mk "" 0
    ⟨⟨doc.lineCount - 1, (doc.lineAt (doc.lineCount - 1)).length⟩,
     ⟨doc.lineCount - 1, (doc.lineAt (doc.lineCount - 1)).length⟩⟩
    ⟨⟨doc.lineCount - 1, (doc.lineAt (doc.lineCount - 1)).length⟩,
     ⟨doc.lineCount - 1, (doc.lineAt (doc.lineCount - 1)).length⟩⟩
    [] 20 true, ?_, rfl, rfl, rfl, rfl, ?_, ?_⟩
  · rw [getChildren, hdoc, createPlaceholders, hdoc]
  · intro hmem
    have := hnp _ (mem_allNodesF_of_mem hmem)
    simp [OutlineItem.isPlaceholder] at this
  · intro line hfound
    have hmem := searchItems_mem st.items line _ hfound
    have := hnp _ hmem
    simp [OutlineItem.isPlaceholder] at this

/-- Concrete state for the C10 witness: a two-line document and one
real root item. -/
def c10Doc : Document := ⟨["# A", "text"], "markdown"⟩

def c10State : ProviderState := ⟨[c2DemoRoot], some c10Doc⟩

theorem c10_getChildren_placeholder_witness :
    c10State.currentDocument = some c10Doc ∧
    (∀ it ∈ allNodesF c10State.items, it.isPlaceholder = false) ∧
    ∃ ph, getChildren c10State none = c10State.items ++ [ph] ∧
      ph.label = "" ∧ ph.level = 0 ∧
      ph.range = ⟨⟨c10Doc.lineCount - 1,
          (c10Doc.lineAt (c10Doc.lineCount - 1)).length⟩,
        ⟨c10Doc.lineCount - 1,
          (c10Doc.lineAt (c10Doc.lineCount - 1)).length⟩⟩ ∧
      ph.isPlaceholder = true ∧
      ph ∉ c10State.items ∧
      ∀ line, findItemAtLine c10State line ≠ some ph := by
  have hnp : ∀ it ∈ allNodesF c10State.items, it.isPlaceholder = false := by
    simp [c10State, c2DemoRoot, c2DemoChild, allNodesF,
      OutlineItem.isPlaceholder]
  exact ⟨rfl, hnp, c10_getChildren_placeholder c10State c10Doc rfl hnp⟩

/-- Modelled from the spec: length of the leading run of the marker
character at the start of a line (the fallback lexical rule of §4.4 /
§6; the concrete lexer is the external markdown-it library used by
parseMarkdownDirectly in markdownOutlineProvider.ts). -/
def leadingMarkers : List Char → Nat
  | [] => 0
  | ch :: rest => if ch = '#' then leadingMarkers rest + 1 else 0

def isWhitespaceChar (c : Char) : Bool := c = ' ' || c = '\t'

/-- Modelled from the spec: a line is a heading when a leading run of k
marker characters is followed by whitespace; its level equals the run
length k and its text is the remainder, trimmed. -/
def headingOf (line : String) : Option (Nat × String) :=
  let cs := line.toList
  let k := leadingMarkers cs
  if k = 0 then none
  else
    match cs.drop k with
    | [] => none
    | w :: rest =>
      if isWhitespaceChar w then some (k, (String.mk (w :: rest)).trim)
      else none

/-- Modelled from the spec: scan the document's lines (starting at index
i0) and emit one symbol per heading line. -/
def extractHeadings (i0 : Nat) : List String → List OSym
  | [] => []
  | line :: rest =>
    match headingOf line with
    | some (k, label) => ⟨label, k, i0⟩ :: extractHeadings (i0 + 1) rest
    | none => extractHeadings (i0 + 1) rest

/-- parseMarkdownDirectly of markdownOutlineProvider.ts (lines 37–88):
lex headings from the raw text (markdown-it, modelled from the spec's
lexical rule) and build the hierarchy from the flat items. -/
def parseMarkdownDirectly (lines : List String) : List Node :=
  buildHierarchy (extractHeadings 0 lines) (lines.length - 1)

/-- parseDocument of markdownOutlineProvider.ts (lines 18–31): use the
Symbol Source result when it is non-empty, otherwise fall back to the
direct markdown parse. The Symbol Source result is passed in, since the
generic provider it comes from is outside the sources. -/
def parseDocumentMd (providerSymbols : List Node) (lines : List String) :
    List Node :=
  if providerSymbols.length > 0 then providerSymbols
  else parseMarkdownDirectly lines

def nodeKey (n : Node) : String × Nat × Nat := (n.label, n.level, n.headerLine)

def symKey (s : OSym) : String × Nat × Nat := (s.name, s.level, s.line)

/-- Keys contributed by one open stack entry: its own symbol followed by
all symbols already closed under it. -/
def frameKeys (f : Frame) : List (String × Nat × Nat) :=
  (f.label, f.level, f.headerLine) :: (allNodesN f.childAcc).map nodeKey

/-- All symbol keys stored in a builder state, bottom of the stack
first. -/
def stateKeys (roots : List Node) (stack : List Frame) :
    List (String × Nat × Nat) :=
  (allNodesN roots).map nodeKey ++ (stack.reverse.map frameKeys).flatten

theorem allNodesN_append (xs ys : List Node) :
    allNodesN (xs ++ ys) = allNodesN xs ++ allNodesN ys := by
  induction xs with
  | nil => simp [allNodesN]
  | cons n rest ih =>
    cases n with
    | mk l v h s e cs =>
      rw [List.cons_append, allNodesN, allNodesN, ih]
      simp

theorem popClose_keys (L c : Nat) (stack : List Frame)
    (roots : List Node) :
    stateKeys (popClose L c stack roots).2 (popClose L c stack roots).1 =
      stateKeys roots stack := by
  induction stack, roots using popClose.induct L c with
  | case1 roots => simp [popClose]
  | case2 f roots hle =>
    rw [popClose]
    simp only [hle, if_true]
    simp [stateKeys, allNodesN_append, allNodesN, closeFrame, frameKeys,
      nodeKey, Node.label, Node.level, Node.headerLine, Node.children]
  | case3 f roots hle n g gs ih =>
    rw [popClose]
    simp only [hle, if_true]
    rw [ih]
    have hn : n = closeFrame f c := rfl
    simp [stateKeys, allNodesN_append, allNodesN, hn, closeFrame,
      frameKeys, nodeKey, Node.label, Node.level, Node.headerLine]
  | case4 f rest roots hnle =>
    rw [popClose]
    simp only [if_neg hnle]

theorem step_keys (st : BuildState) (s : OSym) :
    stateKeys (step st s).roots (step st s).stack =
      stateKeys st.roots st.stack ++
        (if s.level == 0 then [] else [symKey s]) := by
  by_cases hlv : s.level = 0
  · rw [step, if_pos hlv]
    simp [hlv]
  · rw [step, if_neg hlv]
    show stateKeys (popClose s.level (s.line - 1) st.stack st.roots).2
      ((⟨s.name, s.level, s.line, []⟩ : Frame) ::
        (popClose s.level (s.line - 1) st.stack st.roots).1) = _
    have hpk := popClose_keys s.level (s.line - 1) st.stack st.roots
    simp only [stateKeys] at hpk ⊢
    rw [List.reverse_cons, List.map_append, List.flatten_append]
    simp only [List.map_cons, List.map_nil, List.flatten_cons,
      List.flatten_nil, List.append_nil]
    rw [← List.append_assoc, hpk]
    simp [hlv, frameKeys, allNodesN, symKey]

theorem foldl_keys (syms : List OSym) :
    ∀ st : BuildState,
      stateKeys (syms.foldl step st).roots (syms.foldl step st).stack =
        stateKeys st.roots st.stack ++
          (syms.filter (fun s => s.level != 0)).map symKey := by
  induction syms with
  | nil => intro st; simp
  | cons s rest ih =>
    intro st
    rw [List.foldl_cons, ih (step st s), step_keys]
    by_cases hlv : s.level = 0 <;> simp [hlv, List.filter_cons]

theorem build_keys (syms : List OSym) (docEnd : Nat) :
    (allNodesN (buildHierarchy syms docEnd)).map nodeKey =
      (syms.filter (fun s => s.level != 0)).map symKey := by
  rw [buildHierarchy]
  have h1 := popClose_keys 0 docEnd (List.foldl step ⟨[], []⟩ syms).stack
    (List.foldl step ⟨[], []⟩ syms).roots
  have h2 := popClose_zero_nil docEnd (List.foldl step ⟨[], []⟩ syms).stack
    (List.foldl step ⟨[], []⟩ syms).roots
  have h3 := foldl_keys syms ⟨[], []⟩
  rw [h2] at h1
  have h4 : (allNodesN (popClose 0 docEnd
      (List.foldl step ⟨[], []⟩ syms).stack
      (List.foldl step ⟨[], []⟩ syms).roots).2).map nodeKey =
      stateKeys (List.foldl step ⟨[], []⟩ syms).roots
        (List.foldl step ⟨[], []⟩ syms).stack := by
    simpa [stateKeys] using h1
  rw [h4, h3]
  simp [stateKeys, allNodesN]

theorem leadingMarkers_replicate (k : Nat) (l : List Char) :
    leadingMarkers (List.replicate k '#' ++ l) = k + leadingMarkers l := by
  induction k with
  | zero => simp
  | succ k ih =>
    rw [List.replicate_succ, List.cons_append, leadingMarkers]
    simp [ih]
    omega

theorem leadingMarkers_not_marker {w : Char} (hw : w ≠ '#')
    (l : List Char) : leadingMarkers (w :: l) = 0 := by
  rw [leadingMarkers, if_neg hw]

theorem headingOf_run {line : String} {k : Nat} {w : Char}
    {rest : List Char} (hk : 1 ≤ k) (hw : isWhitespaceChar w = true)
    (hline : line.toList = List.replicate k '#' ++ w :: rest) :
    headingOf line = some (k, (String.mk (w :: rest)).trim) := by
  have hwne : w ≠ '#' := by
    intro h
    subst h
    simp [isWhitespaceChar] at hw
  have hlm : leadingMarkers line.toList = k := by
    rw [hline, leadingMarkers_replicate, leadingMarkers_not_marker hwne]
    omega
  have hdrop : line.toList.drop k = w :: rest := by
    rw [hline]
    simp
  rw [headingOf]
  simp only [hlm, hdrop]
  rw [if_neg (by omega), if_pos hw]

theorem extractHeadings_mem :
    ∀ (lines : List String) (i0 i : Nat) (line : String) (k : Nat)
      (label : String), lines.get? i = some line →
      headingOf line = some (k, label) →
      (⟨label, k, i0 + i⟩ : OSym) ∈ extractHeadings i0 lines := by
  intro lines
  induction lines with
  | nil => intro i0 i line k label h; simp at h
  | cons hd tl ih =>
    intro i0 i line k label hget hheading
    cases i with
    | zero =>
      simp at hget
      subst hget
      rw [extractHeadings, hheading]
      simp
    | succ j =>
      have hget' : tl.get? j = some line := by simpa using hget
      have := ih (i0 + 1) j line k label hget' hheading
      have harith : i0 + 1 + j = i0 + (j + 1) := by omega
      rw [harith] at this
      rw [extractHeadings]
      cases headingOf hd with
      | none => exact this
      | some pr => exact List.mem_cons_of_mem _ this

/-- C4: parseDocument returns the Symbol Source's symbols whenever that
source yields at least one symbol; it runs the fallback lexical parse
exactly when the source yields zero symbols; and in the fallback, a line
introduced by a leading run of k marker characters followed by a
whitespace character yields a node of level k at that line. -/
theorem c4_parseDocument_fallback (providerSymbols : List Node)
    (lines : List String) :
    (providerSymbols ≠ [] →
      parseDocumentMd providerSymbols lines = providerSymbols) ∧
    (parseDocumentMd [] lines = parseMarkdownDirectly lines) ∧
    (∀ i line k w rest, lines.get? i = some line → 1 ≤ k →
      isWhitespaceChar w = true →
      line.toList = List.replicate k '#' ++ w :: rest →
      ∃ nd ∈ allNodesN (parseMarkdownDirectly lines),
        nd.level = k ∧ nd.headerLine = i ∧
        nd.label = (String.mk (w :: rest)).trim) := by
  refine ⟨?_, ?_, ?_⟩
  · intro hne
    rw [parseDocumentMd, if_pos (by simpa [List.length_pos] using hne)]
  · rw [parseDocumentMd]
    simp
  · intro i line k w rest hget hk hw hline
    have hheading := headingOf_run hk hw hline
    have hmem := extractHeadings_mem lines 0 i line k
      ((String.mk (w :: rest)).trim) hget hheading
    simp only [Nat.zero_add] at hmem
    have hkeys := build_keys (extractHeadings 0 lines) (lines.length - 1)
    have hsym : symKey ⟨(String.mk (w :: rest)).trim, k, i⟩ ∈
        (allNodesN (parseMarkdownDirectly lines)).map nodeKey := by
      rw [parseMarkdownDirectly, hkeys]
      apply List.mem_map_of_mem
      rw [List.mem_filter]
      refine ⟨hmem, ?_⟩
      simp
      omega
    obtain ⟨nd, hnd, hkey⟩ := List.mem_map.mp hsym
    refine ⟨nd, hnd, ?_, ?_, ?_⟩
    · have := congrArg (fun t => t.2.1) hkey
      simpa [nodeKey, symKey] using this
    · have := congrArg (fun t => t.2.2) hkey
      simpa [nodeKey, symKey] using this
    · have := congrArg (fun t => t.1) hkey
      simpa [nodeKey, symKey] using this

/-- Concrete fallback input for the C4 witness: a two-line document with
one level-2 heading on line 1. -/
def c4Lines : List String := ["text", "## Title"]

theorem c4_parseDocument_fallback_witness :
    parseDocumentMd [] c4Lines = parseMarkdownDirectly c4Lines ∧
    ∃ nd ∈ allNodesN (parseMarkdownDirectly c4Lines),
      nd.level = 2 ∧ nd.headerLine = 1 ∧
      nd.label = (String.mk (' ' :: ['T', 'i', 't', 'l', 'e'])).trim := by
  refine ⟨(c4_parseDocument_fallback [] c4Lines).2.1, ?_⟩
  exact (c4_parseDocument_fallback [] c4Lines).2.2 1 "## Title" 2 ' '
    ['T', 'i', 't', 'l', 'e'] (by decide) (by decide) (by decide) (by decide)

/-- Modelled from the spec: look up the node whose header starts at the
given line (§4.3 source validation; the mover lives in the missing
treeDragAndDropController.ts). -/
def findNodeByHeader (forest : List Node) (line : Nat) : Option Node :=
  (allNodesN forest).find? (fun n => n.headerLine == line)

/-- Delete the inclusive line range [a, b] from a document. -/
def deleteLines (lines : List String) (a b : Nat) : List String :=
  lines.take a ++ lines.drop (b + 1)

/-- Insert a block of lines before line index at. -/
def insertLines (lines : List String) (at_ : Nat) (block : List String) :
    List String :=
  lines.take at_ ++ block ++ lines.drop at_

/-- Modelled from the spec: the destination insertion line (§4.3 step
2) — the content start of the nearest node whose header starts at or
after the target line, or the end of the document when none follows. -/
def destinationLine (forest : List Node) (lines : List String)
    (target : Nat) : Nat :=
  let cands := ((allNodesN forest).filter
    (fun n => target ≤ n.headerLine)).map Node.contentStart
  match cands.min? with
  | some d => d
  | none => lines.length

/-- Modelled from the spec: the section mover (§4.3). Validation is
fail-closed: a move already in progress, a sourceStartLine matching no
node's header, or a targetLine inside the source node's own content
range each reject the move, returning false with the document unchanged
(the mover is a total function, so no exception escapes its boundary).
Otherwise the target is clamped to the document end, the source block
[contentStart, contentEnd] is captured verbatim, and one delete+insert
is applied with the insertion line shifted down by the block length when
it lies beyond the deleted block. -/
def moveSection (forest : List Node) (lines : List String)
    (moveInProgress : Bool) (sourceStartLine targetLine : Nat) :
    Bool × List String :=
  if moveInProgress then (false, lines)
  else
    match findNodeByHeader forest sourceStartLine with
    | none => (false, lines)
    | some src =>
      if src.contentStart ≤ targetLine ∧ targetLine ≤ src.contentEnd then
        (false, lines)
      else
        let target := min targetLine lines.length
        let blockLen := src.contentEnd + 1 - src.contentStart
        let block := (lines.drop src.contentStart).take blockLen
        let dest := destinationLine forest lines target
        let destAdj := if src.contentEnd < dest then dest - blockLen
          else dest
        let removed := deleteLines lines src.contentStart src.contentEnd
        (true, insertLines removed destAdj block)

/-- C3: the mover rejects — returning false and leaving the document
byte-for-byte unchanged — whenever a move is already in progress,
whenever no node's header starts at sourceStartLine, and whenever
targetLine falls inside the source node's own content range; being a
total function, it lets no exception escape. -/
theorem c3_moveSection_rejects (forest : List Node) (lines : List String)
    (mip : Bool) (s t : Nat) :
    (moveSection forest lines true s t = (false, lines)) ∧
    ((∀ n ∈ allNodesN forest, n.headerLine ≠ s) →
      moveSection forest lines mip s t = (false, lines)) ∧
    (∀ src, findNodeByHeader forest s = some src →
      src.contentStart ≤ t → t ≤ src.contentEnd →
      moveSection forest lines mip s t = (false, lines)) := by
  refine ⟨by rw [moveSection, if_pos rfl], ?_, ?_⟩
  · intro hnone
    have hfind : findNodeByHeader forest s = none := by
      rw [findNodeByHeader, List.find?_eq_none]
      intro n hn
      simp [hnone n hn]
    cases mip with
    | true => rw [moveSection, if_pos rfl]
    | false =>
      rw [moveSection]
      simp only [if_neg Bool.false_ne_true, hfind]
  · intro src hsrc h1 h2
    cases mip with
    | true => rw [moveSection, if_pos rfl]
    | false =>
      rw [moveSection]
      simp only [if_neg Bool.false_ne_true, hsrc]
      rw [if_pos ⟨h1, h2⟩]

/-- The 20-line document of the §8 self-nested-drop scenario. -/
def c3Doc : List String := List.replicate 20 "line"

theorem c3_moveSection_rejects_witness :
    moveSection (buildHierarchy demoSyms 19) c3Doc false 0 10 =
      (false, c3Doc) := by
  have hfind : findNodeByHeader (buildHierarchy demoSyms 19) 0 =
      some (Node.mk "A" 1 0 0 14 [Node.mk "B" 2 5 5 14
        [Node.mk "C" 3 10 10 14 []]]) := by
    simp [findNodeByHeader, buildHierarchy, demoSyms, step, popClose,
      closeFrame, allNodesN, List.find?, Node.headerLine]
  exact (c3_moveSection_rejects (buildHierarchy demoSyms 19) c3Doc
    false 0 10).2.2 _ hfind (by decide) (by decide)

/-- The two delegate provider classes the dispatcher can instantiate. -/
inductive ProviderKind where
  | markdownProvider
  | genericProvider
deriving DecidableEq, Repr

/-- CUSTOM_PROVIDERS of multiLanguageOutlineProvider.ts (lines 20–25):
markdown and emd map to the markdown provider factory; other language
ids have no entry. -/
def CUSTOM_PROVIDERS (languageId : String) : Option ProviderKind :=
  if languageId = "markdown" then some ProviderKind.markdownProvider
  else if languageId = "emd" then some ProviderKind.markdownProvider
  else none

/-- createProviderForLanguage of multiLanguageOutlineProvider.ts (lines
37–40): the custom factory when present, the generic provider
otherwise. -/
def createProviderForLanguage (languageId : String) : ProviderKind :=
  (CUSTOM_PROVIDERS languageId).getD ProviderKind.genericProvider

/-- A delegate provider instance: its class, an instance identity
(fresh per construction, standing for object identity), and its own
provider state (items and current document). -/
structure Delegate where
  kind : ProviderKind
  instanceId : Nat
  items : List OutlineItem
  currentDocument : Option Document

/-- A delegate's refresh with a document (outlineProvider.ts 36–46 run
on the delegate): parse and store; parse is the delegate's
language-specific parseDocument, supplied as a function of its class. -/
def Delegate.refresh (parse : ProviderKind → Document → List OutlineItem)
    (d : Delegate) (doc : Document) : Delegate :=
  { d with currentDocument := some doc, items := parse d.kind doc }

/-- The facade state of MultiLanguageOutlineProvider: the active
delegate, the cached language id, the copied items, the current
document, and the next fresh instance id. -/
structure MultiState where
  delegate : Delegate
  currentLanguageId : Option String
  items : List OutlineItem
  currentDocument : Option Document
  nextId : Nat

/-- refresh of multiLanguageOutlineProvider.ts (lines 46–71): with no
document clear the facade fields and fire; with a document, replace the
delegate (a fresh instance from the factory table) exactly when the
language id differs from the cached one, delegate the refresh, then
copy the delegate's root items. The Bool is the change notification. -/
def MultiState.refresh (parse : ProviderKind → Document → List OutlineItem)
    (st : MultiState) (doc? : Option Document) : MultiState × Bool :=
  match doc? with
  | none =>
    ({ st with
        currentDocument := none
        items := []
        currentLanguageId := none }, true)
  | some doc =>
    let st1 :=
      if st.currentLanguageId = some doc.languageId then st
      else
        { st with
          delegate := ⟨createProviderForLanguage doc.languageId,
            st.nextId, [], none⟩
          currentLanguageId := some doc.languageId
          nextId := st.nextId + 1 }
    let d := Delegate.refresh parse st1.delegate doc
    ({ st1 with
        delegate := d
        currentDocument := some doc
        items := d.items }, true)

/-- findItemAtLine of multiLanguageOutlineProvider.ts (lines 88–90):
delegate to the current delegate's items. -/
def MultiState.findItemAtLine (st : MultiState) (lineNumber : Nat) :
    Option OutlineItem :=
  searchItems st.delegate.items lineNumber

/-- getChildren as inherited by the facade from outlineProvider.ts:
computed from the facade's own items and current document. -/
def multiGetChildren (st : MultiState)
    (element : Option OutlineItem) : List OutlineItem :=
  getChildren ⟨st.items, st.currentDocument⟩ element

/-- C5: a refresh with a document replaces the delegate (a fresh
instance) exactly when the document's language id differs from the
cached one, choosing the markdown provider for markdown and emd and the
generic provider otherwise, and reuses the same delegate instance when
the id is unchanged. -/
theorem c5_refresh_switches_delegate
    (parse : ProviderKind → Document → List OutlineItem)
    (st : MultiState) (doc : Document)
    (hfresh : st.delegate.instanceId < st.nextId) :
    ((MultiState.refresh parse st (some doc)).1.delegate.instanceId ≠
        st.delegate.instanceId ↔
      st.currentLanguageId ≠ some doc.languageId) ∧
    (st.currentLanguageId ≠ some doc.languageId →
      (MultiState.refresh parse st (some doc)).1.delegate.kind =
        createProviderForLanguage doc.languageId) ∧
    (st.currentLanguageId = some doc.languageId →
      (MultiState.refresh parse st (some doc)).1.delegate.kind =
          st.delegate.kind ∧
        (MultiState.refresh parse st (some doc)).1.delegate.instanceId =
          st.delegate.instanceId) ∧
    (createProviderForLanguage "markdown" =
        ProviderKind.markdownProvider ∧
      createProviderForLanguage "emd" = ProviderKind.markdownProvider ∧
      ∀ lid, lid ≠ "markdown" → lid ≠ "emd" →
        createProviderForLanguage lid = ProviderKind.genericProvider) := by
  by_cases hlang : st.currentLanguageId = some doc.languageId
  · rw [MultiState.refresh]
    simp only [if_pos hlang]
    refine ⟨?_, ?_, ?_, ?_⟩
    · simp [Delegate.refresh, hlang]
    · intro hne; exact absurd hlang hne
    · intro _; exact ⟨rfl, rfl⟩
    · refine ⟨rfl, rfl, ?_⟩
      intro lid h1 h2
      rw [createProviderForLanguage, CUSTOM_PROVIDERS, if_neg h1, if_neg h2]
      rfl
  · rw [MultiState.refresh]
    simp only [if_neg hlang]
    refine ⟨?_, ?_, ?_, ?_⟩
    · simp only [Delegate.refresh]
      constructor
      · intro _; exact hlang
      · intro _; omega
    · intro _; rfl
    · intro heq; exact absurd heq hlang
    · refine ⟨rfl, rfl, ?_⟩
      intro lid h1 h2
      rw [createProviderForLanguage, CUSTOM_PROVIDERS, if_neg h1, if_neg h2]
      rfl

/-- Concrete inputs for the C5 witness: an emd document arriving while
the cached language is markdown. -/
def c5State : MultiState :=
  ⟨⟨ProviderKind.markdownProvider, 0, [], none⟩, some "markdown", [],
    none, 1⟩

def c5Doc : Document := ⟨["# A"], "emd"⟩

theorem c5_refresh_switches_delegate_witness :
    c5State.delegate.instanceId < c5State.nextId ∧
    ((MultiState.refresh (fun _ _ => []) c5State (some c5Doc)).1.delegate.kind
      = createProviderForLanguage "emd") := by
  refine ⟨by decide, ?_⟩
  exact (c5_refresh_switches_delegate (fun _ _ => []) c5State c5Doc
    (by decide)).2.1 (by decide)

/-- C7 (amended): refresh with no document clears the facade's cached
forest, language id and document and fires the change notification, so
getChildren at the root yields no items — but the delegate instance is
left untouched, and findItemAtLine, which forwards to the delegate,
still searches the delegate's previously parsed items rather than
returning none. -/
theorem c7_refresh_none_clears
    (parse : ProviderKind → Document → List OutlineItem)
    (st : MultiState) (line : Nat) :
    (MultiState.refresh parse st none).1.items = [] ∧
    (MultiState.refresh parse st none).1.currentDocument = none ∧
    (MultiState.refresh parse st none).1.currentLanguageId = none ∧
    (MultiState.refresh parse st none).2 = true ∧
    multiGetChildren (MultiState.refresh parse st none).1 none = [] ∧
    (MultiState.refresh parse st none).1.delegate = st.delegate ∧
    MultiState.findItemAtLine (MultiState.refresh parse st none).1 line =
      searchItems st.delegate.items line := by
  refine ⟨rfl, rfl, rfl, rfl, ?_, rfl, rfl⟩
  rw [multiGetChildren]
  rfl

/-- An item whose range contains line 0, cached inside the delegate. -/
def c7Item : OutlineItem :=
  OutlineItem.mk "H" 1 ⟨⟨0, 0⟩, ⟨5, 0⟩⟩ ⟨⟨0, 0⟩, ⟨0, 3⟩⟩ [] 14 false

/-- A facade state whose delegate still holds a parsed forest. -/
def c7State : MultiState :=
  ⟨⟨ProviderKind.markdownProvider, 0, [c7Item],
      some ⟨["# H", "a", "b", "c", "d", "e"], "markdown"⟩⟩,
    some "markdown", [c7Item],
    some ⟨["# H", "a", "b", "c", "d", "e"], "markdown"⟩, 1⟩

/-- C7 counterexample: after refresh with no document, findItemAtLine
still returns an item (the delegate's forest was not cleared), so the
claim that it returns no item for every line number is false. -/
theorem c7_counterexample :
    MultiState.findItemAtLine
      (MultiState.refresh (fun _ _ => []) c7State none).1 0 =
      some c7Item := by
  simp [MultiState.refresh, MultiState.findItemAtLine, c7State, c7Item,
    searchItems, Rng.containsPos, Pos.isBeforeOrEqual]

/-- An event of the cooperative scheduler of §5 acting on the facade's
refresh (multiLanguageOutlineProvider.ts 46–71): dispatch starts a
refresh whose parse will produce the given forest (the await suspends),
and complete i finishes the i-th dispatched refresh (0-based), at which
point the code copies the delegate's items into the cache
unconditionally — the source performs no generation comparison. -/
inductive RefreshEvent where
  | dispatch (result : List Node)
  | complete (i : Nat)

/-- Record of one commit: the 1-based generation of the completed
refresh, the number of generations issued at commit time, and the
committed forest. -/
structure CommitRec where
  gen : Nat
  latest : Nat
  result : List Node

/-- State of the interleaving model: dispatched results in dispatch
order, the cached forest, and the commit history. -/
structure AsyncState where
  issued : List (List Node)
  cache : List Node
  commits : List CommitRec

def asyncStep (st : AsyncState) (e : RefreshEvent) : AsyncState :=
  match e with
  | .dispatch r => { st with issued := st.issued ++ [r] }
  | .complete i =>
    match st.issued.get? i with
    | some r =>
      { st with
        cache := r
        commits := st.commits ++ [⟨i + 1, st.issued.length, r⟩] }
    | none => st

def runEvents (events : List RefreshEvent) : AsyncState :=
  events.foldl asyncStep ⟨[], [], []⟩

/-- C6 counterexample: dispatch two refreshes, let the second complete
first and the first (now superseded) complete afterwards; the code
commits the superseded result — its generation 1 is not the latest
issued (2) — so the claim that a completed refresh's forest is
committed only if its generation is the latest issued is false. -/
theorem c6_counterexample :
    ¬ (∀ c ∈ (runEvents [RefreshEvent.dispatch [],
        RefreshEvent.dispatch [Node.mk "D" 1 0 0 0 []],
        RefreshEvent.complete 1, RefreshEvent.complete 0]).commits,
        c.gen = c.latest) := by
  intro h
  have hc : (runEvents [RefreshEvent.dispatch [],
      RefreshEvent.dispatch [Node.mk "D" 1 0 0 0 []],
      RefreshEvent.complete 1, RefreshEvent.complete 0]).commits =
      [⟨2, 2, [Node.mk "D" 1 0 0 0 []]⟩, ⟨1, 2, []⟩] := rfl
  have := h ⟨1, 2, []⟩ (by rw [hc]; simp)
  simp at this

theorem runEvents_inv (events : List RefreshEvent) :
    ∀ st : AsyncState, (∀ c ∈ st.commits, c.gen ≤ c.latest) →
      st.cache = ((st.commits.getLast?).map CommitRec.result).getD [] →
      (∀ c ∈ (events.foldl asyncStep st).commits, c.gen ≤ c.latest) ∧
      (events.foldl asyncStep st).cache =
        (((events.foldl asyncStep st).commits.getLast?).map
          CommitRec.result).getD [] := by
  induction events with
  | nil => intro st h1 h2; exact ⟨h1, h2⟩
  | cons e rest ih =>
    intro st h1 h2
    rw [List.foldl_cons]
    apply ih
    · intro c hc
      cases e with
      | dispatch r => exact h1 c hc
      | complete i =>
        rw [asyncStep] at hc
        cases hget : st.issued.get? i with
        | none => rw [hget] at hc; exact h1 c hc
        | some r =>
          rw [hget] at hc
          simp only at hc
          rcases List.mem_append.mp hc with hc | hc
          · exact h1 c hc
          · rw [List.mem_singleton] at hc
            subst hc
            have hlt : i < st.issued.length := by
              obtain ⟨hh, _⟩ := List.get?_eq_some.mp hget
              exact hh
            simp only
            omega
    · cases e with
      | dispatch r => exact h2
      | complete i =>
        rw [asyncStep]
        cases hget : st.issued.get? i with
        | none => exact h2
        | some r => simp

/-- C6 (amended): dispatches are tagged with increasing generations
(each dispatch appends the next index), and every commit's generation
is bounded by the latest issued; but a completed refresh commits
unconditionally — the cache always equals the forest of the last
completed refresh, whether or not its generation is the latest, so a
superseded refresh's result can be committed. -/
theorem c6_commit_unconditional (events : List RefreshEvent) :
    (∀ r, (runEvents (events ++ [RefreshEvent.dispatch r])).issued.length
      = (runEvents events).issued.length + 1) ∧
    (∀ c ∈ (runEvents events).commits, c.gen ≤ c.latest) ∧
    (runEvents events).cache =
      (((runEvents events).commits.getLast?).map CommitRec.result).getD
        [] := by
  refine ⟨?_, ?_, ?_⟩
  · intro r
    rw [runEvents, runEvents, List.foldl_append]
    simp [asyncStep]
  · exact (runEvents_inv events ⟨[], [], []⟩ (by simp) (by simp)).1
  · exact (runEvents_inv events ⟨[], [], []⟩ (by simp) (by simp)).2

/-- Outcome of one refreshWithTimeout request: how many refreshes ran,
the root items afterwards, whether the no-symbols message was shown,
and whether the backoff timer was awaited. -/
structure RefreshOutcome where
  refreshCount : Nat
  finalItems : List OutlineItem
  messageShown : Bool
  waited : Bool

/-- refreshWithTimeout of the extension entry point (second half of
scripts/bump_version.ts, lines 195–231): refresh; when the root items
are empty, compute remainingTime = max(0, 350 - elapsed) (Nat
subtraction already truncates at 0), and when positive, await it and
refresh exactly once more; afterwards the message is shown exactly when
the current root items are still empty. The two refresh results and the
elapsed time of the first are inputs. -/
def refreshWithTimeout (elapsed : Nat)
    (firstResult secondResult : List OutlineItem) : RefreshOutcome :=
  if firstResult.length = 0 then
    let remainingTime := 350 - elapsed
    if remainingTime > 0 then
      if secondResult.length = 0 then ⟨2, secondResult, true, true⟩
      else ⟨2, secondResult, false, true⟩
    else ⟨1, firstResult, true, false⟩
  else ⟨1, firstResult, false, false⟩

/-- C9: at most one retry ever happens; a second build runs exactly
when the first yields zero items within the 350ms budget, after the
single backoff; its result is accepted as final; and a non-empty first
build means no retry and no wait. -/
theorem c9_single_bounded_retry (elapsed : Nat)
    (r1 r2 : List OutlineItem) :
    (refreshWithTimeout elapsed r1 r2).refreshCount ≤ 2 ∧
    ((refreshWithTimeout elapsed r1 r2).refreshCount = 2 ↔
      r1 = [] ∧ elapsed < 350) ∧
    (r1 ≠ [] → (refreshWithTimeout elapsed r1 r2).refreshCount = 1 ∧
      (refreshWithTimeout elapsed r1 r2).finalItems = r1 ∧
      (refreshWithTimeout elapsed r1 r2).waited = false) ∧
    ((refreshWithTimeout elapsed r1 r2).refreshCount = 2 →
      (refreshWithTimeout elapsed r1 r2).waited = true ∧
      (refreshWithTimeout elapsed r1 r2).finalItems = r2) := by
  by_cases h1 : r1.length = 0
  · have h1' : r1 = [] := List.length_eq_zero.mp h1
    by_cases ht : 350 - elapsed > 0
    · by_cases h2 : r2.length = 0
      · have hev : refreshWithTimeout elapsed r1 r2 = ⟨2, r2, true, true⟩ :=
          by rw [refreshWithTimeout]; simp [h1, ht, h2]
        rw [hev]
        exact ⟨by simp, by simp [h1']; omega, fun hne => absurd h1' hne,
          fun _ => ⟨rfl, rfl⟩⟩
      · have hev : refreshWithTimeout elapsed r1 r2 =
            ⟨2, r2, false, true⟩ := by
          rw [refreshWithTimeout]; simp [h1, ht, h2]
        rw [hev]
        exact ⟨by simp, by simp [h1']; omega, fun hne => absurd h1' hne,
          fun _ => ⟨rfl, rfl⟩⟩
    · have hev : refreshWithTimeout elapsed r1 r2 = ⟨1, r1, true, false⟩ :=
        by rw [refreshWithTimeout]; simp [h1, ht]
      rw [hev]
      refine ⟨by simp, ?_, fun _ => ⟨rfl, rfl, rfl⟩, by simp⟩
      simp [h1']
      omega
  · have h1'' : r1 ≠ [] := by intro h; simp [h] at h1
    have hev : refreshWithTimeout elapsed r1 r2 = ⟨1, r1, false, false⟩ :=
      by rw [refreshWithTimeout]; simp [h1]
    rw [hev]
    refine ⟨by simp, ?_, fun _ => ⟨rfl, rfl, rfl⟩, by simp⟩
    simp [h1'']

theorem c9_single_bounded_retry_witness :
    (refreshWithTimeout 0 [] [c2DemoRoot]).refreshCount = 2 ∧
    (refreshWithTimeout 0 [] [c2DemoRoot]).finalItems = [c2DemoRoot] := by
  have h := c9_single_bounded_retry 0 [] [c2DemoRoot]
  have h2 := (h.2.1).mpr ⟨rfl, by omega⟩
  exact ⟨h2, (h.2.2.2 h2).2⟩
